import Mathlib

/-!
Verification development for the Minimal-optimization-example notebook.

The notebook defines a symbolic cost function
`Sum C_i X_i + P * (Sum X_i - 1)^2` over binary variables `X_0 .. X_{N-1}`,
substitutes concrete data `(TestN, TestC, TestP)` to obtain an expanded
polynomial `cost_poly`, and from its coefficients builds
(a) a qiskit quadratic program (linear list + quadratic dictionary), and
(b) a D-Wave QUBO dictionary keyed by index pairs `(i, j)` with `i ≤ j`,
whose diagonal entries fold the squared-term coefficient into the linear one.

This file embeds those artifacts: `cost_function` is the symbolic template,
`coeff_monomial_X` / `coeff_monomial_XX` / `cost_poly_const` are the
coefficients of the expanded polynomial `cost_poly` (the notebook's printed
expansion shows exactly `C_i - 2P` on `X_i`, `P` on `X_i^2`, `2P` on
`X_i*X_j` and constant `P`; the lemma `cost_poly_eval_eq_cost_function`
proves these coefficients are the exact expansion of the template),
`Qubo` is the D-Wave dictionary and `qiskitEval` the qiskit objective.
-/

/-- Concrete problem size from the notebook data-input cell (`TestN = 5`). -/
def TestN : ℕ := 5

/-- Concrete cost vector from the notebook data-input cell. -/
def TestC : List ℤ := [4, 3, 7, 2, 9]

/-- Concrete penalty value from the notebook data-input cell. -/
def TestP : ℤ := 50

/-- Number of qubits, set to `TestN` in the notebook. -/
def num_qubits : ℕ := TestN

/-- The symbolic cost template of the notebook, evaluated at an
assignment `x`: `Sum_{i<N} C_i * X_i + P * (Sum_{i<N} X_i - 1)^2`.
Costs are read with `List.getD` at the variable's index. -/
def cost_function (N : ℕ) (C : List ℤ) (P : ℤ) (x : ℕ → ℤ) : ℤ :=
  (∑ i ∈ Finset.range N, C.getD i 0 * x i)
    + P * ((∑ i ∈ Finset.range N, x i) - 1) ^ 2

/-- Coefficient of the degree-1 monomial `X_i` in the expanded concrete
polynomial `cost_poly`: `C_i - 2*P` (the notebook prints `-96*X[0]` etc.
for the test data). -/
def coeff_monomial_X (C : List ℤ) (P : ℤ) (i : ℕ) : ℤ :=
  C.getD i 0 - 2 * P

/-- Coefficient of the monomial `X_i * X_j` (for `i ≤ j`) in `cost_poly`:
`P` on the squared terms (`i = j`, the notebook prints `50*X[0]**2` etc.)
and `2*P` on the cross terms (`i < j`, printed `100*X[0]*X[1]` etc.). -/
def coeff_monomial_XX (P : ℤ) (i j : ℕ) : ℤ :=
  if i = j then P else 2 * P

/-- Constant term of the expanded polynomial `cost_poly` (printed `+ 50`). -/
def cost_poly_const (P : ℤ) : ℤ := P

/-- Evaluation of the expanded polynomial `cost_poly` at an assignment:
linear part, squared part, cross part and the constant. -/
def cost_poly_eval (N : ℕ) (C : List ℤ) (P : ℤ) (x : ℕ → ℤ) : ℤ :=
  (∑ i ∈ Finset.range N, coeff_monomial_X C P i * x i)
    + (∑ i ∈ Finset.range N, coeff_monomial_XX P i i * (x i * x i))
    + (∑ i ∈ Finset.range N, ∑ j ∈ Finset.Ico (i + 1) N,
        coeff_monomial_XX P i j * (x i * x j))
    + cost_poly_const P

/-- Key list of the QUBO dictionary comprehension
`for i in range(num_qubits) for j in range(i, num_qubits)`. -/
def quboKeys (N : ℕ) : List (ℕ × ℕ) :=
  (List.range N).flatMap fun i => (List.range' i (N - i)).map fun j => (i, j)

/-- Value stored by the QUBO dictionary at key `(i, j)`:
`cost_poly.coeff_monomial(X[i]*X[j]) + (cost_poly.coeff_monomial(X[i]) if i==j else 0)`. -/
def quboVal (C : List ℤ) (P : ℤ) (p : ℕ × ℕ) : ℤ :=
  coeff_monomial_XX P p.1 p.2 + (if p.1 = p.2 then coeff_monomial_X C P p.1 else 0)

/-- The D-Wave QUBO dictionary of the notebook, as an association list
in comprehension order. -/
def Qubo (N : ℕ) (C : List ℤ) (P : ℤ) : List ((ℕ × ℕ) × ℤ) :=
  (quboKeys N).map fun p => (p, quboVal C P p)

/-- Standard QUBO objective of a coefficient dictionary at an assignment:
the sum of `value * x_i * x_j` over the stored entries. -/
def quboEval (q : List ((ℕ × ℕ) × ℤ)) (x : ℕ → ℤ) : ℤ :=
  (q.map fun e => e.2 * (x e.1.1 * x e.1.2)).sum

/-- Dictionary access on the association list: the value at the first
entry whose key equals `p`. -/
def dictGet (q : List ((ℕ × ℕ) × ℤ)) (p : ℕ × ℕ) : Option ℤ :=
  (q.find? fun e => decide (e.1 = p)).map fun e => e.2

/-- Objective of the qiskit quadratic program built in the notebook:
linear coefficients `cost_poly.coeff_monomial(X[i])` for `i < N`, plus the
quadratic dictionary `cost_poly.coeff_monomial(X[i]*X[j])` over pairs
`i ≤ j < N` (the same key comprehension as the QUBO dictionary). -/
def qiskitEval (N : ℕ) (C : List ℤ) (P : ℤ) (x : ℕ → ℤ) : ℤ :=
  ((List.range N).map fun i => coeff_monomial_X C P i * x i).sum
    + ((quboKeys N).map fun p => coeff_monomial_XX P p.1 p.2 * (x p.1 * x p.2)).sum

/-- Standard basis assignment: `X_k = 1`, all other variables `0`. -/
def eVec (k : ℕ) : ℕ → ℤ := fun i => if i = k then 1 else 0

/-- All-zero assignment. -/
def zeroAsgn : ℕ → ℤ := fun _ => 0

/-- Assignment with exactly the two (distinct) variables `a` and `b` set
to `1`. -/
def twoHot (a b : ℕ) : ℕ → ℤ :=
  fun i => (if i = a then 1 else 0) + (if i = b then 1 else 0)

/-- Interpretation of a boolean vector on `Fin n` as a 0/1 assignment. -/
def bAsgn (n : ℕ) (x : Fin n → Bool) : ℕ → ℤ :=
  fun i => if h : i < n then (if x ⟨i, h⟩ then 1 else 0) else 0

/-- Objective values of the QUBO dictionary at the feasible
(exactly-one-hot) assignments. -/
def feasVals (N : ℕ) (C : List ℤ) (P : ℤ) : List ℤ :=
  (List.range N).map fun k => quboEval (Qubo N C P) (eVec k)

/-- Minimum objective value of the QUBO dictionary over the feasible
(exactly-one-hot) assignments. -/
def feasMin (N : ℕ) (C : List ℤ) (P : ℤ) : ℤ :=
  (feasVals N C P).min?.getD 0

/-- Coefficient of the substituted polynomial: either a concrete integer,
or a still-symbolic cost `C_k` plus an integer offset (the notebook's
`cost_dict` only substitutes `C[k]` for `k < len(TestC)`, so indices
beyond the supplied cost vector stay symbolic). -/
inductive SymExpr where
  | num : ℤ → SymExpr
  | symC : ℕ → ℤ → SymExpr
deriving DecidableEq

/-- Coefficients of the polynomial produced by the substitution step
(`cost_function.subs(single_valued_dict).doit().subs(cost_dict)` wrapped
by `sym.Poly`): linear coefficients per variable, and the always-concrete
squared, cross and constant coefficients. -/
structure InstPoly where
  lin : ℕ → SymExpr
  quadDiag : ℤ
  quadCross : ℤ
  const : ℤ

/-- Result of the substitution step on inputs `(N, C, P)`: the linear
coefficient of `X_i` is `C_i - 2*P` when `i < C.length` (substituted) and
the symbolic `C_i - 2*P` otherwise. -/
def instPoly (_N : ℕ) (C : List ℤ) (P : ℤ) : InstPoly :=
  { lin := fun i =>
      if i < C.length then SymExpr.num (C.getD i 0 - 2 * P)
      else SymExpr.symC i (-(2 * P))
    quadDiag := P
    quadCross := 2 * P
    const := P }

/-- The substitution step with its (absent) failure channel made explicit:
the notebook performs no dimension check and sympy raises no exception
while substituting, so every input produces a polynomial. -/
def instantiateE (N : ℕ) (C : List ℤ) (P : ℤ) : Except String InstPoly :=
  Except.ok (instPoly N C P)

/-- Boolean success test for the substitution step. -/
def instOk : Except String InstPoly → Bool
  | Except.ok _ => true
  | Except.error _ => false

/-! ### Sum-conversion helpers -/

/-- Sum of a mapped `List.range` as a `Finset.range` sum. -/
lemma listSum_map_range {α : Type} [AddCommMonoid α] (g : ℕ → α) (n : ℕ) :
    ((List.range n).map g).sum = ∑ i ∈ Finset.range n, g i := by
  induction n with
  | zero => rfl
  | succ n ih =>
      rw [List.range_succ, List.map_append, List.sum_append,
        Finset.sum_range_succ, ih]
      simp

/-- Sum of a mapped `List.range'` as a `Finset.Ico` sum. -/
lemma listSum_map_range' {α : Type} [AddCommMonoid α] (g : ℕ → α) :
    ∀ (n s : ℕ), ((List.range' s n).map g).sum = ∑ j ∈ Finset.Ico s (s + n), g j := by
  intro n
  induction n with
  | zero => intro s; simp
  | succ n ih =>
      intro s
      rw [List.range'_succ, List.map_cons, List.sum_cons, ih (s + 1),
        Finset.sum_eq_sum_Ico_succ_bot (by omega : s < s + (n + 1))]
      have : s + 1 + n = s + (n + 1) := by omega
      rw [this]

/-- Sum of a flattened list of lists. -/
lemma listSum_flatMap {α : Type} [AddCommMonoid α] (l : List ℕ) (f : ℕ → List α) :
    (l.flatMap f).sum = (l.map fun a => (f a).sum).sum := by
  induction l with
  | nil => rfl
  | cons a l ih => rw [List.flatMap_cons, List.sum_append, List.map_cons, List.sum_cons, ih]

/-- Sum of a function over the QUBO key list, as a nested `Finset` sum
over the upper-triangular index pairs. -/
lemma sum_map_quboKeys {α : Type} [AddCommMonoid α] (N : ℕ) (g : ℕ × ℕ → α) :
    ((quboKeys N).map g).sum
      = ∑ i ∈ Finset.range N, ∑ j ∈ Finset.Ico i N, g (i, j) := by
  unfold quboKeys
  rw [List.map_flatMap, listSum_flatMap, listSum_map_range]
  refine Finset.sum_congr rfl fun i hi => ?_
  rw [List.map_map]
  have h1 : ((List.range' i (N - i)).map (g ∘ fun j => (i, j))).sum
      = ∑ j ∈ Finset.Ico i (i + (N - i)), g (i, j) := listSum_map_range' _ _ _
  rw [h1]
  have h2 : i + (N - i) = N := by
    have := Finset.mem_range.mp hi; omega
  rw [h2]

/-- Length of the QUBO key list: one entry per upper-triangular pair. -/
lemma length_quboKeys (N : ℕ) : (quboKeys N).length = N + N * (N - 1) / 2 := by
  unfold quboKeys
  rw [List.length_flatMap, listSum_map_range]
  have h1 : ∀ i ∈ Finset.range N,
      (List.length ∘ fun i => (List.range' i (N - i)).map fun j => (i, j)) i = N - i := by
    intro i _
    simp [List.length_range']
  rw [Finset.sum_congr rfl h1]
  have h2 : ∀ i ∈ Finset.range N, N - (N - 1 - i) = i + 1 := by
    intro i hi
    have := Finset.mem_range.mp hi; omega
  calc ∑ i ∈ Finset.range N, (N - i)
      = ∑ i ∈ Finset.range N, (N - (N - 1 - i)) := (Finset.sum_range_reflect _ _).symm
    _ = ∑ i ∈ Finset.range N, (i + 1) := Finset.sum_congr rfl h2
    _ = (∑ i ∈ Finset.range N, i) + N := by
        rw [Finset.sum_add_distrib]; simp [Finset.sum_const, Finset.card_range]
    _ = N + N * (N - 1) / 2 := by
        have := Finset.sum_range_id_mul_two N
        omega

/-- Membership in the QUBO key list is exactly the upper-triangular
condition `i ≤ j < N`. -/
lemma mem_quboKeys {N i j : ℕ} : (i, j) ∈ quboKeys N ↔ i ≤ j ∧ j < N := by
  unfold quboKeys
  simp only [List.mem_flatMap, List.mem_map, List.mem_range, List.mem_range'_1,
    Prod.mk.injEq]
  constructor
  · rintro ⟨a, ha, b, ⟨hb1, hb2⟩, rfl, rfl⟩
    omega
  · rintro ⟨hij, hj⟩
    exact ⟨i, by omega, j, ⟨hij, by omega⟩, rfl, rfl⟩

/-- The QUBO key list has no duplicate keys. -/
lemma nodup_quboKeys (N : ℕ) : (quboKeys N).Nodup := by
  unfold quboKeys
  rw [List.nodup_flatMap]
  constructor
  · intro i _
    exact (List.nodup_range' i (N - i)).map (fun a b h => (Prod.mk.injEq _ _ _ _ ▸ h).2)
  · have h := List.pairwise_lt_range N
    refine h.imp ?_
    intro a b hab
    rw [Function.onFun, List.disjoint_left]
    rintro ⟨u, v⟩ hu hv
    simp only [List.mem_map, List.mem_range'_1, Prod.mk.injEq] at hu hv
    obtain ⟨_, _, rfl, _⟩ := hu
    obtain ⟨_, _, h2, _⟩ := hv
    omega

/-! ### Dictionary access -/

/-- Searching a key list for a fixed key returns that key when present. -/
lemma find?_eq_of_mem (p : ℕ × ℕ) :
    ∀ (l : List (ℕ × ℕ)), p ∈ l → (l.find? fun k => decide (k = p)) = some p := by
  intro l
  induction l with
  | nil => intro h; cases h
  | cons a l ih =>
      intro h
      by_cases ha : a = p
      · subst ha
        rw [List.find?_cons_of_pos _ (by simp)]
      · rw [List.find?_cons_of_neg _ (by simp [ha])]
        rcases List.mem_cons.mp h with h' | h'
        · exact absurd h'.symm ha
        · exact ih h'

/-- Dictionary access on the QUBO association list at a valid
upper-triangular key returns the stored coefficient. -/
lemma dictGet_Qubo (N : ℕ) (C : List ℤ) (P : ℤ) (i j : ℕ)
    (hij : i ≤ j) (hj : j < N) :
    dictGet (Qubo N C P) (i, j) = some (quboVal C P (i, j)) := by
  unfold dictGet Qubo
  rw [List.find?_map]
  have hpred : ((fun e : (ℕ × ℕ) × ℤ => decide (e.1 = (i, j))) ∘
      fun p => (p, quboVal C P p)) = fun k => decide (k = (i, j)) := rfl
  rw [hpred, find?_eq_of_mem _ _ (mem_quboKeys.mpr ⟨hij, hj⟩)]
  rfl

/-! ### Algebraic expansion -/

/-- Expansion of the squared sum into squared terms and cross terms over
the strictly-upper-triangular pairs. -/
lemma sq_sum_expand (x : ℕ → ℤ) :
    ∀ N : ℕ, (∑ i ∈ Finset.range N, x i) ^ 2
      = (∑ i ∈ Finset.range N, x i * x i)
        + 2 * ∑ i ∈ Finset.range N, ∑ j ∈ Finset.Ico (i + 1) N, x i * x j := by
  intro N
  induction N with
  | zero => simp
  | succ N ih =>
      have hcross :
          (∑ i ∈ Finset.range (N + 1), ∑ j ∈ Finset.Ico (i + 1) (N + 1), x i * x j)
            = (∑ i ∈ Finset.range N, ∑ j ∈ Finset.Ico (i + 1) N, x i * x j)
              + (∑ i ∈ Finset.range N, x i) * x N := by
        rw [Finset.sum_range_succ]
        have h1 : ∀ i ∈ Finset.range N,
            (∑ j ∈ Finset.Ico (i + 1) (N + 1), x i * x j)
              = (∑ j ∈ Finset.Ico (i + 1) N, x i * x j) + x i * x N := by
          intro i hi
          exact Finset.sum_Ico_succ_top (Finset.mem_range.mp hi) _
        rw [Finset.sum_congr rfl h1, Finset.sum_add_distrib, Finset.Ico_self,
          Finset.sum_empty, ← Finset.sum_mul]
        ring
      rw [Finset.sum_range_succ, Finset.sum_range_succ (fun i => x i * x i), hcross]
      linear_combination ih

/-- Helper for pulling a constant factor out of the nested cross-term sum. -/
lemma double_mul_sum (c : ℤ) (N : ℕ) (f : ℕ → ℕ → ℤ) :
    (∑ i ∈ Finset.range N, ∑ j ∈ Finset.Ico (i + 1) N, c * f i j)
      = c * ∑ i ∈ Finset.range N, ∑ j ∈ Finset.Ico (i + 1) N, f i j := by
  rw [Finset.mul_sum]
  exact Finset.sum_congr rfl fun i _ => (Finset.mul_sum _ _ _).symm

/-- Structural form of the QUBO objective: diagonal entries contribute
`(C_i - P) * x_i * x_i`, cross entries contribute `2P * x_i * x_j`. -/
lemma quboEval_Qubo_sum (N : ℕ) (C : List ℤ) (P : ℤ) (x : ℕ → ℤ) :
    quboEval (Qubo N C P) x
      = (∑ i ∈ Finset.range N, C.getD i 0 * (x i * x i))
        - P * (∑ i ∈ Finset.range N, x i * x i)
        + 2 * P * ∑ i ∈ Finset.range N, ∑ j ∈ Finset.Ico (i + 1) N, x i * x j := by
  unfold quboEval Qubo
  rw [List.map_map]
  have hfun : ((fun e : (ℕ × ℕ) × ℤ => e.2 * (x e.1.1 * x e.1.2)) ∘
      fun p => (p, quboVal C P p)) = fun p : ℕ × ℕ => quboVal C P p * (x p.1 * x p.2) := rfl
  rw [hfun, sum_map_quboKeys]
  have hsplit : ∀ i ∈ Finset.range N,
      (∑ j ∈ Finset.Ico i N, quboVal C P (i, j) * (x i * x j))
        = (C.getD i 0 * (x i * x i) - P * (x i * x i))
          + ∑ j ∈ Finset.Ico (i + 1) N, 2 * P * (x i * x j) := by
    intro i hi
    rw [Finset.sum_eq_sum_Ico_succ_bot (Finset.mem_range.mp hi)]
    have hdiag : quboVal C P (i, i) * (x i * x i)
        = C.getD i 0 * (x i * x i) - P * (x i * x i) := by
      simp only [quboVal, coeff_monomial_XX, coeff_monomial_X, eq_self_iff_true, if_true]
      ring
    have hoff : ∀ j ∈ Finset.Ico (i + 1) N,
        quboVal C P (i, j) * (x i * x j) = 2 * P * (x i * x j) := by
      intro j hj
      have hne : i ≠ j := by
        have := (Finset.mem_Ico.mp hj).1; omega
      simp only [quboVal, coeff_monomial_XX, if_neg hne]
      ring
    rw [hdiag, Finset.sum_congr rfl hoff]
  rw [Finset.sum_congr rfl hsplit, Finset.sum_add_distrib, Finset.sum_sub_distrib,
    ← Finset.mul_sum, double_mul_sum]

/-- The expanded polynomial coefficients are exactly the expansion of the
symbolic cost template: both sides agree on every integer assignment. -/
lemma cost_poly_eval_eq_cost_function (N : ℕ) (C : List ℤ) (P : ℤ) (x : ℕ → ℤ) :
    cost_poly_eval N C P x = cost_function N C P x := by
  unfold cost_poly_eval cost_function cost_poly_const
  have h1 : ∀ i ∈ Finset.range N,
      coeff_monomial_X C P i * x i = C.getD i 0 * x i - 2 * P * x i := by
    intro i _; unfold coeff_monomial_X; ring
  have h2 : ∀ i ∈ Finset.range N,
      coeff_monomial_XX P i i * (x i * x i) = P * (x i * x i) := by
    intro i _; simp [coeff_monomial_XX]
  have h3 : ∀ i ∈ Finset.range N,
      (∑ j ∈ Finset.Ico (i + 1) N, coeff_monomial_XX P i j * (x i * x j))
        = ∑ j ∈ Finset.Ico (i + 1) N, 2 * P * (x i * x j) := by
    intro i _
    refine Finset.sum_congr rfl fun j hj => ?_
    have hne : i ≠ j := by
      have := (Finset.mem_Ico.mp hj).1; omega
    simp [coeff_monomial_XX, hne]
  rw [Finset.sum_congr rfl h1, Finset.sum_congr rfl h2, Finset.sum_congr rfl h3,
    Finset.sum_sub_distrib, ← Finset.mul_sum, ← Finset.mul_sum, double_mul_sum]
  have hS2 := sq_sum_expand x N
  linear_combination (-P) * hS2

/-- On binary assignments the QUBO objective equals the symbolic cost
template minus the dropped constant `P`. -/
lemma quboEval_eq_cost_function_sub (N : ℕ) (C : List ℤ) (P : ℤ) (x : ℕ → ℤ)
    (hx : ∀ i < N, x i = 0 ∨ x i = 1) :
    quboEval (Qubo N C P) x = cost_function N C P x - P := by
  have hsq : ∀ i ∈ Finset.range N, x i * x i = x i := by
    intro i hi
    rcases hx i (Finset.mem_range.mp hi) with h | h <;> rw [h] <;> ring
  have hT : (∑ i ∈ Finset.range N, x i * x i) = ∑ i ∈ Finset.range N, x i :=
    Finset.sum_congr rfl hsq
  have hL : (∑ i ∈ Finset.range N, C.getD i 0 * (x i * x i))
      = ∑ i ∈ Finset.range N, C.getD i 0 * x i :=
    Finset.sum_congr rfl fun i hi => by rw [hsq i hi]
  rw [quboEval_Qubo_sum]
  unfold cost_function
  have hS2 := sq_sum_expand x N
  linear_combination hL - 2 * P * hT - P * hS2

/-! ### Evaluations at particular assignments -/

/-- Binary-valuedness of `eVec`. -/
lemma binary_eVec (k N : ℕ) : ∀ i < N, eVec k i = 0 ∨ eVec k i = 1 := by
  intro i _
  unfold eVec
  by_cases h : i = k <;> simp [h]

/-- Binary-valuedness of `zeroAsgn`. -/
lemma binary_zeroAsgn (N : ℕ) : ∀ i < N, zeroAsgn i = 0 ∨ zeroAsgn i = 1 := by
  intro i _
  left
  rfl

/-- Binary-valuedness of `twoHot` for distinct positions. -/
lemma binary_twoHot (a b N : ℕ) (hab : a ≠ b) :
    ∀ i < N, twoHot a b i = 0 ∨ twoHot a b i = 1 := by
  intro i _
  unfold twoHot
  by_cases ha : i = a
  · subst ha
    simp [hab]
  · by_cases hb : i = b
    · subst hb
      simp [ha]
    · simp [ha, hb]

/-- Binary-valuedness of `bAsgn`. -/
lemma binary_bAsgn (n N : ℕ) (x : Fin n → Bool) :
    ∀ i < N, bAsgn n x i = 0 ∨ bAsgn n x i = 1 := by
  intro i _
  unfold bAsgn
  by_cases h : i < n
  · rw [dif_pos h]
    by_cases hx : x ⟨i, h⟩ <;> simp [hx]
  · rw [dif_neg h]
    left
    rfl

/-- Value of the cost template at a standard basis assignment. -/
lemma cost_function_eVec (N : ℕ) (C : List ℤ) (P : ℤ) (k : ℕ) (hk : k < N) :
    cost_function N C P (eVec k) = C.getD k 0 := by
  unfold cost_function eVec
  have h1 : (∑ i ∈ Finset.range N, C.getD i 0 * (if i = k then (1 : ℤ) else 0))
      = C.getD k 0 := by
    have : ∀ i ∈ Finset.range N,
        C.getD i 0 * (if i = k then (1 : ℤ) else 0)
          = if i = k then C.getD i 0 else 0 := by
      intro i _
      by_cases h : i = k <;> simp [h]
    rw [Finset.sum_congr rfl this, Finset.sum_ite_eq', if_pos (Finset.mem_range.mpr hk)]
  have h2 : (∑ i ∈ Finset.range N, (if i = k then (1 : ℤ) else 0)) = 1 := by
    rw [Finset.sum_ite_eq' (Finset.range N) k (fun _ => (1 : ℤ)),
      if_pos (Finset.mem_range.mpr hk)]
  rw [h1, h2]
  ring

/-- Value of the cost template at the all-zero assignment. -/
lemma cost_function_zeroAsgn (N : ℕ) (C : List ℤ) (P : ℤ) :
    cost_function N C P zeroAsgn = P := by
  unfold cost_function zeroAsgn
  simp

/-- Value of the cost template at a two-hot assignment. -/
lemma cost_function_twoHot (N : ℕ) (C : List ℤ) (P : ℤ) (a b : ℕ)
    (ha : a < N) (hb : b < N) (_hab : a ≠ b) :
    cost_function N C P (twoHot a b) = C.getD a 0 + C.getD b 0 + P := by
  unfold cost_function twoHot
  have hsplit : ∀ (f : ℕ → ℤ),
      (∑ i ∈ Finset.range N,
        f i * ((if i = a then (1 : ℤ) else 0) + (if i = b then 1 else 0)))
      = f a + f b := by
    intro f
    have : ∀ i ∈ Finset.range N,
        f i * ((if i = a then (1 : ℤ) else 0) + (if i = b then 1 else 0))
          = (if i = a then f i else 0) + (if i = b then f i else 0) := by
      intro i _
      split_ifs <;> ring
    rw [Finset.sum_congr rfl this, Finset.sum_add_distrib,
      Finset.sum_ite_eq', Finset.sum_ite_eq',
      if_pos (Finset.mem_range.mpr ha), if_pos (Finset.mem_range.mpr hb)]
  have h1 := hsplit (fun i => C.getD i 0)
  have h2 : (∑ i ∈ Finset.range N,
      ((if i = a then (1 : ℤ) else 0) + (if i = b then 1 else 0))) = 2 := by
    have := hsplit (fun _ => (1 : ℤ))
    simpa using this
  rw [h1, h2]
  ring

/-- QUBO objective at a standard basis assignment: the raw cost minus the
dropped constant `P`. -/
lemma quboEval_eVec (N : ℕ) (C : List ℤ) (P : ℤ) (k : ℕ) (hk : k < N) :
    quboEval (Qubo N C P) (eVec k) = C.getD k 0 - P := by
  rw [quboEval_eq_cost_function_sub N C P (eVec k) (binary_eVec k N),
    cost_function_eVec N C P k hk]

/-- QUBO objective at the all-zero assignment. -/
lemma quboEval_zeroAsgn (N : ℕ) (C : List ℤ) (P : ℤ) :
    quboEval (Qubo N C P) zeroAsgn = 0 := by
  rw [quboEval_eq_cost_function_sub N C P zeroAsgn (binary_zeroAsgn N),
    cost_function_zeroAsgn]
  ring

/-- QUBO objective at a two-hot assignment: the two raw costs (the penalty
contributions cancel against the folded diagonal). -/
lemma quboEval_twoHot (N : ℕ) (C : List ℤ) (P : ℤ) (a b : ℕ)
    (ha : a < N) (hb : b < N) (hab : a ≠ b) :
    quboEval (Qubo N C P) (twoHot a b) = C.getD a 0 + C.getD b 0 := by
  rw [quboEval_eq_cost_function_sub N C P (twoHot a b) (binary_twoHot a b N hab),
    cost_function_twoHot N C P a b ha hb hab]
  ring

/-! ### The feasible minimum -/

/-- The feasible-values list is nonempty for `N ≥ 1` and its minimum is
attained at some feasible index and bounds all feasible values. -/
lemma feasMin_spec (N : ℕ) (C : List ℤ) (P : ℤ) (hN : 1 ≤ N) :
    (∃ k < N, feasMin N C P = quboEval (Qubo N C P) (eVec k)) ∧
      ∀ k < N, feasMin N C P ≤ quboEval (Qubo N C P) (eVec k) := by
  have hne : feasVals N C P ≠ [] := by
    unfold feasVals
    simp only [ne_eq, List.map_eq_nil_iff, List.range_eq_nil]
    omega
  obtain ⟨a, ha⟩ : ∃ a, (feasVals N C P).min? = some a := by
    cases h : (feasVals N C P).min? with
    | none => exact absurd (List.min?_eq_none_iff.mp h) hne
    | some a => exact ⟨a, rfl⟩
  have hmem : a ∈ feasVals N C P := List.min?_mem min_choice ha
  have hle : ∀ b ∈ feasVals N C P, a ≤ b :=
    (List.le_min?_iff (fun _ _ _ => le_min_iff) ha).mp le_rfl
  have hfeas : feasMin N C P = a := by
    unfold feasMin
    rw [ha]
    rfl
  constructor
  · obtain ⟨k, hk, hka⟩ : ∃ k ∈ List.range N, quboEval (Qubo N C P) (eVec k) = a := by
      simpa [feasVals, List.mem_map] using hmem
    exact ⟨k, List.mem_range.mp hk, by rw [hfeas, hka]⟩
  · intro k hk
    rw [hfeas]
    exact hle _ (by simp only [feasVals, List.mem_map, List.mem_range]; exact ⟨k, hk, rfl⟩)

/-- Each cost entry is bounded by the total cost when all costs are
nonnegative. -/
lemma getD_le_sum (C : List ℤ) (hpos : ∀ c ∈ C, 0 ≤ c) (k : ℕ) (hk : k < C.length) :
    C.getD k 0 ≤ C.sum := by
  have hmem : C.getD k 0 ∈ C := by
    rw [List.getD_eq_getElem C 0 hk]
    exact List.getElem_mem hk
  exact List.single_le_sum hpos _ hmem

/-! ### The qiskit objective -/

/-- Structural form of the qiskit objective. -/
lemma qiskitEval_sum (N : ℕ) (C : List ℤ) (P : ℤ) (x : ℕ → ℤ) :
    qiskitEval N C P x
      = (∑ i ∈ Finset.range N, C.getD i 0 * x i)
        - 2 * P * (∑ i ∈ Finset.range N, x i)
        + P * (∑ i ∈ Finset.range N, x i * x i)
        + 2 * P * ∑ i ∈ Finset.range N, ∑ j ∈ Finset.Ico (i + 1) N, x i * x j := by
  unfold qiskitEval
  rw [listSum_map_range, sum_map_quboKeys]
  have hlin : ∀ i ∈ Finset.range N,
      coeff_monomial_X C P i * x i = C.getD i 0 * x i - 2 * P * x i := by
    intro i _
    unfold coeff_monomial_X
    ring
  have hquad : ∀ i ∈ Finset.range N,
      (∑ j ∈ Finset.Ico i N, coeff_monomial_XX P i j * (x i * x j))
        = P * (x i * x i) + ∑ j ∈ Finset.Ico (i + 1) N, 2 * P * (x i * x j) := by
    intro i hi
    rw [Finset.sum_eq_sum_Ico_succ_bot (Finset.mem_range.mp hi)]
    have hdiag : coeff_monomial_XX P i i * (x i * x i) = P * (x i * x i) := by
      simp only [coeff_monomial_XX, eq_self_iff_true, if_true]
    have hoff : ∀ j ∈ Finset.Ico (i + 1) N,
        coeff_monomial_XX P i j * (x i * x j) = 2 * P * (x i * x j) := by
      intro j hj
      have hne : i ≠ j := by
        have := (Finset.mem_Ico.mp hj).1; omega
      simp [coeff_monomial_XX, hne]
    rw [hdiag, Finset.sum_congr rfl hoff]
  rw [Finset.sum_congr rfl hlin, Finset.sum_congr rfl hquad,
    Finset.sum_add_distrib, Finset.sum_sub_distrib,
    ← Finset.mul_sum, ← Finset.mul_sum, double_mul_sum]
  ring

/-! ### Claims -/

/-- C1: for every `N ≥ 1`, cost vector `C` of length `N` and penalty `P`,
the assembled QUBO coefficient map has diagonal entry `(i, i)` equal to
`C_i - P` for every index `i < N`. -/
theorem claim_C1 (N : ℕ) (C : List ℤ) (P : ℤ) (k : ℕ)
    (_hN : 1 ≤ N) (_hC : C.length = N) (hk : k < N) :
    dictGet (Qubo N C P) (k, k) = some (C.getD k 0 - P) := by
  rw [dictGet_Qubo N C P k k le_rfl hk]
  have hval : quboVal C P (k, k) = C.getD k 0 - P := by
    simp only [quboVal, coeff_monomial_XX, coeff_monomial_X, eq_self_iff_true, if_true]
    ring
  rw [hval]

/-- Witness for C1 at the notebook's test instance and index 3. -/
theorem claim_C1_witness :
    dictGet (Qubo TestN TestC TestP) (3, 3) = some (TestC.getD 3 0 - TestP) :=
  claim_C1 TestN TestC TestP 3 (by decide) (by decide) (by decide)

/-- C2 counterexample: in the expanded concrete polynomial for the test
instance, the squared monomial `X_0^2` has the nonzero coefficient `50`
and the degree-1 coefficient of `X_0` is `-96`, not `C_0 - P = -46`:
the reduction `X_i^2 = X_i` is NOT applied inside the polynomial. -/
theorem claim_C2_counterexample :
    coeff_monomial_XX TestP 0 0 = 50 ∧ ¬((50 : ℤ) = 0) ∧
    coeff_monomial_X TestC TestP 0 = -96 ∧
    ¬((-96 : ℤ) = TestC.getD 0 0 - TestP) :=
  ⟨by decide, by decide, by decide, by decide⟩

/-- C2 amended: the concrete expanded polynomial retains the `X_i^2`
monomials with coefficient `P` and its degree-1 coefficient of `X_i` is
`C_i - 2P`; it is the exact expansion of the template (first conjunct),
and the folding `X_i^2 = X_i` happens only at QUBO assembly, where the
diagonal entry becomes `C_i - P`. -/
theorem claim_C2 (N : ℕ) (C : List ℤ) (P : ℤ) (i : ℕ) (x : ℕ → ℤ)
    (_hN : 1 ≤ N) (_hC : C.length = N) (_hi : i < N) :
    cost_poly_eval N C P x = cost_function N C P x ∧
    coeff_monomial_XX P i i = P ∧
    coeff_monomial_X C P i = C.getD i 0 - 2 * P ∧
    quboVal C P (i, i) = C.getD i 0 - P := by
  refine ⟨cost_poly_eval_eq_cost_function N C P x, ?_, rfl, ?_⟩
  · simp [coeff_monomial_XX]
  · simp only [quboVal, coeff_monomial_XX, coeff_monomial_X, eq_self_iff_true, if_true]
    ring

/-- Witness for the amended C2 at the test instance, index 0. -/
theorem claim_C2_witness :
    cost_poly_eval TestN TestC TestP (eVec 0) = cost_function TestN TestC TestP (eVec 0) ∧
    coeff_monomial_XX TestP 0 0 = TestP ∧
    coeff_monomial_X TestC TestP 0 = TestC.getD 0 0 - 2 * TestP ∧
    quboVal TestC TestP (0, 0) = TestC.getD 0 0 - TestP :=
  claim_C2 TestN TestC TestP 0 (eVec 0) (by decide) (by decide) (by decide)

/-- C3: for every `N ≥ 1`, cost vector of length `N`, penalty `P` and
pair `i < j < N`, the off-diagonal QUBO entry at `(i, j)` is `2P`. -/
theorem claim_C3 (N : ℕ) (C : List ℤ) (P : ℤ) (i j : ℕ)
    (_hN : 1 ≤ N) (_hC : C.length = N) (hij : i < j) (hj : j < N) :
    dictGet (Qubo N C P) (i, j) = some (2 * P) := by
  rw [dictGet_Qubo N C P i j (le_of_lt hij) hj]
  have hne : i ≠ j := Nat.ne_of_lt hij
  simp [quboVal, coeff_monomial_XX, hne]

/-- Witness for C3 at the test instance, pair (1, 2). -/
theorem claim_C3_witness :
    dictGet (Qubo TestN TestC TestP) (1, 2) = some (2 * TestP) :=
  claim_C3 TestN TestC TestP 1 2 (by decide) (by decide) (by decide) (by decide)

/-- C4 counterexample: at the test instance the QUBO objective at the
standard basis vector `e_3` is `-48`, not the raw cost `C_3 = 2`. -/
theorem claim_C4_counterexample :
    quboEval (Qubo TestN TestC TestP) (eVec 3) = -48 ∧
    ¬((-48 : ℤ) = TestC.getD 3 0) :=
  ⟨by decide, by decide⟩

/-- C4 amended: the QUBO objective at `e_k` is `C_k - P` (the map drops
the polynomial's constant `P`); the full expanded polynomial, constant
included, evaluates to `C_k` there. -/
theorem claim_C4 (N : ℕ) (C : List ℤ) (P : ℤ) (k : ℕ)
    (_hN : 1 ≤ N) (_hC : C.length = N) (hk : k < N) :
    quboEval (Qubo N C P) (eVec k) = C.getD k 0 - P ∧
    cost_poly_eval N C P (eVec k) = C.getD k 0 := by
  constructor
  · exact quboEval_eVec N C P k hk
  · rw [cost_poly_eval_eq_cost_function, cost_function_eVec N C P k hk]

/-- Witness for the amended C4 at the test instance, index 2. -/
theorem claim_C4_witness :
    quboEval (Qubo TestN TestC TestP) (eVec 2) = TestC.getD 2 0 - TestP ∧
    cost_poly_eval TestN TestC TestP (eVec 2) = TestC.getD 2 0 :=
  claim_C4 TestN TestC TestP 2 (by decide) (by decide) (by decide)

/-- C5: at the notebook's test instance (`N = 5`, `C = [4,3,7,2,9]`,
`P = 50`) the one-hot assignment at index 3 is the unique minimizer of
the assembled QUBO objective over all of `{0,1}^5`. -/
theorem claim_C5 : ∀ x : Fin 5 → Bool,
    x = (fun i => decide (i.val = 3)) ∨
    quboEval (Qubo TestN TestC TestP) (bAsgn 5 fun i => decide (i.val = 3)) <
      quboEval (Qubo TestN TestC TestP) (bAsgn 5 x) := by
  decide

/-- C6 counterexample: with `N = 2`, `C = [-2, -3]`, `P = -4` the penalty
precondition `P > Sum C` holds (`-4 > -5`), yet the QUBO objective at the
all-zero assignment (`0`) is NOT strictly greater than the feasible
minimum (`1`). -/
theorem claim_C6_counterexample :
    ([-2, -3] : List ℤ).sum < -4 ∧
    ¬(feasMin 2 [-2, -3] (-4) < quboEval (Qubo 2 [-2, -3] (-4)) zeroAsgn) :=
  ⟨by decide, by decide⟩

/-- C6 amended: when additionally every cost is nonnegative, the QUBO
objective at the all-zero assignment and at every two-hot assignment is
strictly greater than the feasible (one-hot) minimum whenever
`P > Sum C`. -/
theorem claim_C6 (N : ℕ) (C : List ℤ) (P : ℤ)
    (hN : 1 ≤ N) (hC : C.length = N) (hpos : ∀ c ∈ C, 0 ≤ c) (hP : C.sum < P) :
    feasMin N C P < quboEval (Qubo N C P) zeroAsgn ∧
    ∀ a b : ℕ, a < b → b < N →
      feasMin N C P < quboEval (Qubo N C P) (twoHot a b) := by
  obtain ⟨⟨k, hk, hkeq⟩, _⟩ := feasMin_spec N C P hN
  have hkval : feasMin N C P = C.getD k 0 - P := by
    rw [hkeq, quboEval_eVec N C P k hk]
  have hkC : C.getD k 0 ≤ C.sum := getD_le_sum C hpos k (by omega)
  constructor
  · rw [hkval, quboEval_zeroAsgn]
    omega
  · intro a b hab hb
    rw [hkval, quboEval_twoHot N C P a b (by omega) hb (by omega)]
    have ha' : a < C.length := by omega
    have hb' : b < C.length := by omega
    have hCa : 0 ≤ C.getD a 0 := by
      rw [List.getD_eq_getElem C 0 ha']
      exact hpos _ (List.getElem_mem ha')
    have hCb : 0 ≤ C.getD b 0 := by
      rw [List.getD_eq_getElem C 0 hb']
      exact hpos _ (List.getElem_mem hb')
    omega

/-- Witness for the amended C6 at the test instance, two-hot pair (0, 1). -/
theorem claim_C6_witness :
    feasMin TestN TestC TestP < quboEval (Qubo TestN TestC TestP) zeroAsgn ∧
    feasMin TestN TestC TestP < quboEval (Qubo TestN TestC TestP) (twoHot 0 1) :=
  ⟨(claim_C6 TestN TestC TestP (by decide) (by decide) (by decide) (by decide)).1,
   (claim_C6 TestN TestC TestP (by decide) (by decide) (by decide) (by decide)).2
     0 1 (by decide) (by decide)⟩

/-- C7: the QUBO map has exactly `N + N(N-1)/2` entries, its keys are
pairwise distinct, and the keys are exactly the upper-triangular pairs
`i ≤ j < N` (no requested coefficient is omitted). -/
theorem claim_C7 (N : ℕ) (C : List ℤ) (P : ℤ) (_hN : 1 ≤ N) (_hC : C.length = N) :
    (Qubo N C P).length = N + N * (N - 1) / 2 ∧
    ((Qubo N C P).map Prod.fst).Nodup ∧
    ∀ i j : ℕ, ((i, j) ∈ (Qubo N C P).map Prod.fst ↔ i ≤ j ∧ j < N) := by
  have hkeys : (Qubo N C P).map Prod.fst = quboKeys N := by
    unfold Qubo
    rw [List.map_map]
    exact List.map_id _
  refine ⟨?_, ?_, ?_⟩
  · unfold Qubo
    rw [List.length_map, length_quboKeys]
  · rw [hkeys]
    exact nodup_quboKeys N
  · intro i j
    rw [hkeys]
    exact mem_quboKeys

/-- Witness for C7 at the test instance, key (1, 2). -/
theorem claim_C7_witness :
    (Qubo TestN TestC TestP).length = TestN + TestN * (TestN - 1) / 2 ∧
    ((Qubo TestN TestC TestP).map Prod.fst).Nodup ∧
    ((1, 2) ∈ (Qubo TestN TestC TestP).map Prod.fst ↔ 1 ≤ 2 ∧ 2 < TestN) :=
  ⟨(claim_C7 TestN TestC TestP (by decide) (by decide)).1,
   (claim_C7 TestN TestC TestP (by decide) (by decide)).2.1,
   (claim_C7 TestN TestC TestP (by decide) (by decide)).2.2 1 2⟩

/-- C8 counterexample: with `N = 2` and the too-short cost vector `[4]`
the substitution step still succeeds (no DimensionMismatch is raised
anywhere in the source); the leftover cost symbol `C_1` simply stays
unsubstituted in the resulting polynomial. -/
theorem claim_C8_counterexample :
    ¬(([4] : List ℤ).length = 2) ∧
    instOk (instantiateE 2 [4] 1) = true ∧
    (instPoly 2 [4] 1).lin 1 = SymExpr.symC 1 (-(2 * 1)) :=
  ⟨by decide, rfl, by decide⟩

/-- C8 amended: the substitution step never fails, for matching and
mismatching lengths alike; with `i < len(C)` the linear coefficient of
`X_i` is the concrete `C_i - 2P`, and with `len(C) ≤ i` it keeps the
symbolic `C_i` (failing only later, e.g. at the `int(...)` conversion for
the qiskit linear coefficients, not in the substitution step). -/
theorem claim_C8 (N : ℕ) (C : List ℤ) (P : ℤ) :
    instantiateE N C P = Except.ok (instPoly N C P) ∧
    instOk (instantiateE N C P) = true ∧
    (∀ i, i < C.length → (instPoly N C P).lin i = SymExpr.num (C.getD i 0 - 2 * P)) ∧
    (∀ i, C.length ≤ i → (instPoly N C P).lin i = SymExpr.symC i (-(2 * P))) := by
  refine ⟨rfl, rfl, ?_, ?_⟩
  · intro i hi
    show (if i < C.length then SymExpr.num (C.getD i 0 - 2 * P)
      else SymExpr.symC i (-(2 * P))) = _
    rw [if_pos hi]
  · intro i hi
    show (if i < C.length then SymExpr.num (C.getD i 0 - 2 * P)
      else SymExpr.symC i (-(2 * P))) = _
    rw [if_neg (Nat.not_lt.mpr hi)]

/-- Witness for the amended C8 at `N = 2`, `C = [4]`, `P = 1`. -/
theorem claim_C8_witness :
    instantiateE 2 ([4] : List ℤ) 1 = Except.ok (instPoly 2 [4] 1) ∧
    instOk (instantiateE 2 ([4] : List ℤ) 1) = true ∧
    (instPoly 2 ([4] : List ℤ) 1).lin 0
      = SymExpr.num (([4] : List ℤ).getD 0 0 - 2 * 1) ∧
    (instPoly 2 ([4] : List ℤ) 1).lin 1 = SymExpr.symC 1 (-(2 * 1)) :=
  ⟨(claim_C8 2 [4] 1).1, (claim_C8 2 [4] 1).2.1,
   (claim_C8 2 [4] 1).2.2.1 0 (by decide), (claim_C8 2 [4] 1).2.2.2 1 (by decide)⟩

/-- C9: on every binary assignment, the fully expanded concrete cost
polynomial equals the assembled QUBO objective plus the dropped
constant `P`. -/
theorem claim_C9 (N : ℕ) (C : List ℤ) (P : ℤ) (x : ℕ → ℤ)
    (_hC : C.length = N) (hx : ∀ i < N, x i = 0 ∨ x i = 1) :
    cost_poly_eval N C P x = quboEval (Qubo N C P) x + P := by
  rw [cost_poly_eval_eq_cost_function, quboEval_eq_cost_function_sub N C P x hx]
  ring

/-- Witness for C9 at the test instance and the basis assignment `e_3`. -/
theorem claim_C9_witness :
    cost_poly_eval TestN TestC TestP (eVec 3)
      = quboEval (Qubo TestN TestC TestP) (eVec 3) + TestP :=
  claim_C9 TestN TestC TestP (eVec 3) (by decide) (by decide)

/-- C10: on every binary assignment the qiskit quadratic-program
objective (linear `C_i - 2P`, quadratic `P` on `(i,i)` and `2P` on
`(i,j)`, `i < j`) agrees with the D-Wave QUBO objective. -/
theorem claim_C10 (N : ℕ) (C : List ℤ) (P : ℤ) (x : ℕ → ℤ)
    (_hN : 1 ≤ N) (_hC : C.length = N) (hx : ∀ i < N, x i = 0 ∨ x i = 1) :
    qiskitEval N C P x = quboEval (Qubo N C P) x := by
  have hsq : ∀ i ∈ Finset.range N, x i * x i = x i := by
    intro i hi
    rcases hx i (Finset.mem_range.mp hi) with h | h <;> rw [h] <;> ring
  have hT : (∑ i ∈ Finset.range N, x i * x i) = ∑ i ∈ Finset.range N, x i :=
    Finset.sum_congr rfl hsq
  have hL : (∑ i ∈ Finset.range N, C.getD i 0 * (x i * x i))
      = ∑ i ∈ Finset.range N, C.getD i 0 * x i :=
    Finset.sum_congr rfl fun i hi => by rw [hsq i hi]
  rw [qiskitEval_sum, quboEval_Qubo_sum]
  linear_combination -hL + 2 * P * hT

/-- Witness for C10 at the test instance and the basis assignment `e_1`. -/
theorem claim_C10_witness :
    qiskitEval TestN TestC TestP (eVec 1) = quboEval (Qubo TestN TestC TestP) (eVec 1) :=
  claim_C10 TestN TestC TestP (eVec 1) (by decide) (by decide) (by decide)
